import Mathlib

/-!
Verification of the Raft replicated-log core of the `mynode` repository.

The definitions below are a shallow embedding of `src/raft/log.rs`,
`src/raft/node/mod.rs`, `src/raft/node/follower.rs` and
`src/raft/transport.rs`.  Machine integers (`u64`) are modelled as `Nat`
(none of the verified operations can overflow a `u64` in a real run, and
the source never relies on wrapping).  Byte strings (`Vec<u8>`) are
modelled as `List Nat`.  The underlying key-value `Store` is modelled as
an association map: the numeric entry keys (decimal strings `"1"`, `"2"`,
... in the source) become `Nat` keys, and the three reserved keys
`"apply_index"`, `"term"` and `"voted_for"` become dedicated optional
fields.  Fallible operations return their updated state together with an
`Except Err` result, mirroring `&mut self` methods returning
`Result<_, Error>`.
-/

namespace MyNode

/-- A replicated log entry (`Entry` in `src/raft/log.rs`): the term in which
the entry was added and the optional state machine command (`None` encodes
a no-op committed during leader election). -/
structure Entry where
  term : Nat
  command : Option (List Nat)
deriving DecidableEq, Repr

/-- The error kinds of `src/error.rs` that the verified code can produce. -/
inductive Err where
  | RaftBaseNotFound : Nat → Nat → Err
  | Value : String → Err
  | Internal : String → Err
  | Network : String → Err
deriving DecidableEq, Repr

instance instDecEqExcept {ε α : Type} [DecidableEq ε] [DecidableEq α] :
    DecidableEq (Except ε α) := fun x y =>
  match x, y with
  | Except.ok a, Except.ok b =>
    if h : a = b then isTrue (by rw [h])
    else isFalse (by intro hc; cases hc; exact h rfl)
  | Except.ok _, Except.error _ => isFalse (by intro hc; cases hc)
  | Except.error _, Except.ok _ => isFalse (by intro hc; cases hc)
  | Except.error d, Except.error e =>
    if h : d = e then isTrue (by rw [h])
    else isFalse (by intro hc; cases hc; exact h rfl)

/-- Lookup in an association map, modelling `Store::get`. -/
def mapGet {κ β : Type} [DecidableEq κ] : List (κ × β) → κ → Option β
  | [], _ => none
  | p :: rest, i => if p.1 = i then some p.2 else mapGet rest i

/-- Insert-or-replace in an association map, modelling `Store::set`. -/
def mapSet {κ β : Type} [DecidableEq κ] : List (κ × β) → κ → β → List (κ × β)
  | [], i, e => [(i, e)]
  | p :: rest, i, e => if p.1 = i then (i, e) :: rest else p :: mapSet rest i e

/-- Deletion from an association map, modelling `Store::delete`. -/
def mapDelete {κ β : Type} [DecidableEq κ] : List (κ × β) → κ → List (κ × β)
  | [], _ => []
  | p :: rest, i => if p.1 = i then mapDelete rest i else p :: mapDelete rest i

theorem mapGet_mapSet {κ β : Type} [DecidableEq κ] (kv : List (κ × β)) (i j : κ) (e : β) :
    mapGet (mapSet kv i e) j = if j = i then some e else mapGet kv j := by
  induction kv with
  | nil =>
    by_cases h : j = i
    · subst h; simp [mapSet, mapGet]
    · simp [mapSet, mapGet, h, Ne.symm h]
  | cons p rest ih =>
    by_cases hp : p.1 = i
    · by_cases h : j = i
      · subst h; simp [mapSet, mapGet, hp]
      · simp [mapSet, mapGet, hp, h, Ne.symm h]
    · by_cases hj : p.1 = j
      · have hji : ¬ j = i := fun hc => hp (hj.trans hc)
        simp [mapSet, mapGet, hp, hj, hji]
      · simp [mapSet, mapGet, hp, hj, ih]

theorem mapGet_mapDelete {κ β : Type} [DecidableEq κ] (kv : List (κ × β)) (i j : κ) :
    mapGet (mapDelete kv i) j = if j = i then none else mapGet kv j := by
  induction kv with
  | nil =>
    by_cases h : j = i <;> simp [mapDelete, mapGet, h]
  | cons p rest ih =>
    by_cases hp : p.1 = i
    · by_cases h : j = i
      · subst h; simp [mapDelete, mapGet, hp, ih]
      · simp [mapDelete, mapGet, hp, h, ih, Ne.symm h]
    · by_cases hj : p.1 = j
      · have hji : ¬ j = i := fun hc => hp (hj.trans hc)
        simp [mapDelete, mapGet, hp, hj, hji]
      · simp [mapDelete, mapGet, hp, hj, ih]

/-- Deletion of the consecutive keys `lo, lo+1, ..., lo+n-1`, modelling the
loop `for i in (index + 1)..=self.last_index { self.kv.delete(...) }` in
`Log::truncate`. -/
def mapDeleteFrom {β : Type} : List (Nat × β) → Nat → Nat → List (Nat × β)
  | kv, _, 0 => kv
  | kv, lo, n + 1 => mapDeleteFrom (mapDelete kv lo) (lo + 1) n

theorem mapGet_mapDeleteFrom {β : Type} (n : Nat) :
    ∀ (kv : List (Nat × β)) (lo j : Nat),
      mapGet (mapDeleteFrom kv lo n) j =
        if lo ≤ j ∧ j < lo + n then none else mapGet kv j := by
  induction n with
  | zero =>
    intro kv lo j
    simp only [mapDeleteFrom]
    rw [if_neg (by omega)]
  | succ m ih =>
    intro kv lo j
    simp only [mapDeleteFrom]
    rw [ih (mapDelete kv lo) (lo + 1) j, mapGet_mapDelete]
    by_cases h : lo ≤ j ∧ j < lo + (m + 1)
    · rw [if_pos h]
      by_cases hj : j = lo
      · rw [if_neg (by omega), if_pos hj]
      · rw [if_pos (by omega)]
    · rw [if_neg h, if_neg (by omega), if_neg (by omega)]

/-- The replicated Raft log (`Log` in `src/raft/log.rs`).  The numeric
entry keys of the backing `kv` store are the `entries` map; the reserved
keys `"apply_index"`, `"term"` and `"voted_for"` are the three `stored_*`
fields (`none` models an absent key). -/
structure Log where
  entries : List (Nat × Entry)
  stored_apply_index : Option Nat
  stored_term : Option Nat
  stored_voted_for : Option String
  last_index : Nat
  last_term : Nat
  commit_index : Nat
  commit_term : Nat
  apply_index : Nat
  apply_term : Nat
deriving DecidableEq, Repr

/-- `Log::get`: fetches an entry at an index. -/
def Log.get (l : Log) (index : Nat) : Option Entry :=
  mapGet l.entries index

/-- `Log::append`: appends an entry at `last_index + 1`, advancing
`last_index` and `last_term`, and returns the new index.  (The source's
`Result` can only fail on store I/O, which the pure model cannot.) -/
def Log.append (l : Log) (entry : Entry) : Log × Nat :=
  let index := l.last_index + 1
  ({ l with last_index := index, last_term := entry.term,
            entries := mapSet l.entries index entry }, index)

/-- `Log::commit`: commits entries up to and including an index, after
clamping it by `min last_index` and `max commit_index`. -/
def Log.commit (l : Log) (index : Nat) : Log × Except Err Nat :=
  let index := min index l.last_index
  let index := max index l.commit_index
  if index ≠ l.commit_index then
    match l.get index with
    | some entry =>
      ({ l with commit_index := index, commit_term := entry.term }, Except.ok index)
    | none => (l, Except.error (Err.Internal "Entry at commit index does not exist"))
  else
    (l, Except.ok index)

/-- `Log::apply`: applies the next committed entry to the state machine.
The state machine is abstracted as the `mutate` function it is called
through; its output (or error) is the only way it influences the log. -/
def Log.apply (l : Log) (mutate : List Nat → Except Err (List Nat)) :
    Log × Except Err (Option (Nat × List Nat)) :=
  if l.apply_index ≥ l.commit_index then (l, Except.ok none)
  else
    match l.get (l.apply_index + 1) with
    | some entry =>
      match entry.command with
      | some command =>
        match mutate command with
        | Except.ok output =>
          let l' := { l with apply_index := l.apply_index + 1, apply_term := entry.term }
          ({ l' with stored_apply_index := some l'.apply_index },
            Except.ok (some (l'.apply_index, output)))
        | Except.error e => (l, Except.error e)
      | none =>
        let l' := { l with apply_index := l.apply_index + 1, apply_term := entry.term }
        ({ l' with stored_apply_index := some l'.apply_index },
          Except.ok (some (l'.apply_index, [])))
    | none =>
      ({ l with stored_apply_index := some l.apply_index },
        Except.ok (some (l.apply_index, [])))

/-- `Log::truncate`: truncates the log so that its last item is at most
`index`, refusing to remove applied or committed entries. -/
def Log.truncate (l : Log) (index : Nat) : Log × Except Err Nat :=
  if index < l.apply_index then
    (l, Except.error (Err.Value "Cannot remove applied log entry"))
  else if index < l.commit_index then
    (l, Except.error (Err.Value "Cannot remove committed log entry"))
  else
    let entries := mapDeleteFrom l.entries (index + 1) (l.last_index - index)
    let last_index := min index l.last_index
    let l' := { l with entries := entries, last_index := last_index }
    let last_term := match l'.get last_index with
      | some e => e.term
      | none => 0
    ({ l' with last_term := last_term }, Except.ok last_index)

/-- `Log::has`: checks whether the log contains an entry with the given
index and term, with `(0, 0)` always matching. -/
def Log.has (l : Log) (index term : Nat) : Bool :=
  if index == 0 && term == 0 then true
  else
    match l.get index with
    | some entry => entry.term == term
    | none => false

/-- The loop body of `Log::splice`: `i` is the `enumerate` counter, so the
entry handled in each round targets index `base + i + 1`. -/
def Log.spliceEntries : Log → Nat → Nat → List Entry → Log × Except Err Unit
  | l, _, _, [] => (l, Except.ok ())
  | l, base, i, entry :: rest =>
    let target_index := base + i + 1
    match l.get target_index with
    | some current =>
      if current.term == entry.term then
        Log.spliceEntries l base (i + 1) rest
      else
        match l.truncate (target_index - 1) with
        | (l', Except.ok _) => Log.spliceEntries (l'.append entry).1 base (i + 1) rest
        | (l', Except.error e) => (l', Except.error e)
    | none => Log.spliceEntries (l.append entry).1 base (i + 1) rest

/-- `Log::splice`: splices a set of entries onto a base; fails with
`RaftBaseNotFound` when `(base, base_term)` matches no stored entry. -/
def Log.splice (l : Log) (base base_term : Nat) (entries : List Entry) :
    Log × Except Err Nat :=
  if l.has base base_term then
    match Log.spliceEntries l base 0 entries with
    | (l', Except.ok _) => (l', Except.ok l'.last_index)
    | (l', Except.error e) => (l', Except.error e)
  else
    (l, Except.error (Err.RaftBaseNotFound base base_term))

/-- `Log::save_term`: persists the current term (deleting the key when the
term is 0) and the vote (deleting the key when `None`). -/
def Log.save_term (l : Log) (term : Nat) (voted_for : Option String) : Log :=
  let l' := if term > 0 then { l with stored_term := some term }
            else { l with stored_term := none }
  match voted_for with
  | some v => { l' with stored_voted_for := some v }
  | none => { l' with stored_voted_for := none }

/-- `Log::load_term`: the persisted term (0 when absent) and vote. -/
def Log.load_term (l : Log) : Nat × Option String :=
  (l.stored_term.getD 0, l.stored_voted_for)

/-- The contents a backing store can hold when a `Log` is constructed:
numeric entry keys plus the three reserved keys. -/
structure KVStore where
  entries : List (Nat × Entry)
  stored_apply_index : Option Nat
  stored_term : Option Nat
  stored_voted_for : Option String
deriving DecidableEq, Repr

/-- The scan loop of `Log::get_last_index_and_term`: walks keys `i, i+1, ...`
while an entry is present, keeping the last index and term found.  The
source iterates `i` up to `u64::MAX`; since at most `kv.length` distinct
keys are present, fuel `kv.length + 1` reaches the first gap. -/
def scanLastFrom (kv : List (Nat × Entry)) : Nat → Nat → Nat × Nat → Nat × Nat
  | 0, _, acc => acc
  | fuel + 1, i, acc =>
    match mapGet kv i with
    | some entry => scanLastFrom kv fuel (i + 1) (i, entry.term)
    | none => acc

/-- `Log::get_last_index_and_term`: re-derives `(last_index, last_term)` by
scanning consecutive keys from 1 upward until a gap is found. -/
def get_last_index_and_term (kv : List (Nat × Entry)) : Nat × Nat :=
  scanLastFrom kv (kv.length + 1) 1 (0, 0)

/-- `Log::new`: recovers a log from a backing store.  `apply_index` comes
from its reserved key (0 when absent); a non-zero `apply_index` must have a
stored entry, whose term seeds `commit_term` and `apply_term`. -/
def Log.new (s : KVStore) : Except Err Log :=
  let apply_index := s.stored_apply_index.getD 0
  match mapGet s.entries apply_index with
  | some entry =>
    let lt := get_last_index_and_term s.entries
    Except.ok
      { entries := s.entries
        stored_apply_index := s.stored_apply_index
        stored_term := s.stored_term
        stored_voted_for := s.stored_voted_for
        last_index := lt.1
        last_term := lt.2
        commit_index := apply_index
        commit_term := entry.term
        apply_index := apply_index
        apply_term := entry.term }
  | none =>
    if apply_index = 0 then
      let lt := get_last_index_and_term s.entries
      Except.ok
        { entries := s.entries
          stored_apply_index := s.stored_apply_index
          stored_term := s.stored_term
          stored_voted_for := s.stored_voted_for
          last_index := lt.1
          last_term := lt.2
          commit_index := 0
          commit_term := 0
          apply_index := 0
          apply_term := 0 }
    else
      Except.error (Err.Internal "Applied Entry not found")

/-- The empty store. -/
def KVStore.empty : KVStore :=
  { entries := [], stored_apply_index := none, stored_term := none,
    stored_voted_for := none }

/-- The log produced by `Log::new` on an empty store: everything zero. -/
def Log.init : Log :=
  { entries := [], stored_apply_index := none, stored_term := none,
    stored_voted_for := none, last_index := 0, last_term := 0,
    commit_index := 0, commit_term := 0, apply_index := 0, apply_term := 0 }

theorem Log.new_empty : Log.new KVStore.empty = Except.ok Log.init := by
  rfl

/-! ### C1: the splice contract, stated in the words of the spec

`Log.spliceClaim` transcribes the claim: fail with a base-not-found
error (leaving the log unchanged) when no stored entry matches
`(base_index, base_term)` — `(0, 0)` always matching the empty prefix —
and otherwise process each incoming entry at its target index
`base_index + 1 + k`: append when nothing is stored there, skip when the
stored entry has the same term, truncate to `target - 1` and append when
the terms differ; on success return the new `last_index`.  The theorem
proves the source's `Log.splice` equal to this transcription. -/

/-- Per-entry processing of the claim's splice description, threading the
target index directly (the k-th entry of the remaining list is handled at
`target + k`). -/
def Log.spliceClaimGo : Log → Nat → List Entry → Log × Except Err Unit
  | l, _, [] => (l, Except.ok ())
  | l, target, entry :: rest =>
    match l.get target with
    | none => Log.spliceClaimGo (l.append entry).1 (target + 1) rest
    | some stored =>
      if stored.term = entry.term then
        Log.spliceClaimGo l (target + 1) rest
      else
        match l.truncate (target - 1) with
        | (l', Except.ok _) => Log.spliceClaimGo (l'.append entry).1 (target + 1) rest
        | (l', Except.error e) => (l', Except.error e)

/-- The claim's splice description: base matching is worded directly as
"(0,0), or a stored entry at `base_index` whose term is `base_term`". -/
def Log.spliceClaim (l : Log) (base_index base_term : Nat) (entries : List Entry) :
    Log × Except Err Nat :=
  if (base_index == 0 && base_term == 0) ||
      ((l.get base_index).map Entry.term == some base_term) then
    match Log.spliceClaimGo l (base_index + 1) entries with
    | (l', Except.ok _) => (l', Except.ok l'.last_index)
    | (l', Except.error e) => (l', Except.error e)
  else
    (l, Except.error (Err.RaftBaseNotFound base_index base_term))

theorem spliceEntries_eq_spliceClaimGo (E : List Entry) :
    ∀ (l : Log) (base i : Nat),
      Log.spliceEntries l base i E = Log.spliceClaimGo l (base + i + 1) E := by
  induction E with
  | nil => intro l base i; rfl
  | cons e rest ih =>
    intro l base i
    simp only [Log.spliceEntries, Log.spliceClaimGo]
    cases hg : l.get (base + i + 1) with
    | none => exact ih (l.append e).1 base (i + 1)
    | some current =>
      by_cases ht : current.term = e.term
      · simpa [ht] using ih l base (i + 1)
      · have hbt : (current.term == e.term) = false := beq_false_of_ne ht
        rcases htr : l.truncate (base + i + 1 - 1) with ⟨l', r⟩
        cases r with
        | ok n =>
          simpa [hbt, ht, htr] using ih (l'.append e).1 base (i + 1)
        | error err =>
          simp [hbt, ht, htr]

theorem has_eq_claim_match (l : Log) (b t : Nat) :
    l.has b t =
      ((b == 0 && t == 0) || ((l.get b).map Entry.term == some t)) := by
  unfold Log.has
  by_cases h0 : (b == 0 && t == 0) = true
  · simp [h0]
  · cases hg : l.get b <;> simp [h0, hg]

/-- **C1** (confirmed): `Log::splice` behaves exactly as the spec words it:
it fails with a base-not-found error leaving the log unchanged when no
stored entry matches `(base_index, base_term)` (with `(0,0)` always
matching the empty prefix), and otherwise processes each incoming entry at
target index `base_index + 1 + k` — appending when nothing is stored
there, skipping when the stored term matches, truncating to `target - 1`
then appending when it differs — returning the new `last_index` on
success. -/
theorem splice_meets_claim (l : Log) (b t : Nat) (E : List Entry) :
    l.splice b t E = l.spliceClaim b t E := by
  unfold Log.splice Log.spliceClaim
  rw [has_eq_claim_match]
  have halign := spliceEntries_eq_spliceClaimGo E l b 0
  rw [show b + 0 + 1 = b + 1 from rfl] at halign
  rw [halign]

/-! ### C3: commit clamps to the committed window -/

/-- Closed-form characterization of `Log::commit`. -/
theorem commit_eq (l : Log) (i : Nat) :
    l.commit i =
      if max (min i l.last_index) l.commit_index = l.commit_index then
        (l, Except.ok l.commit_index)
      else
        match l.get (max (min i l.last_index) l.commit_index) with
        | some e =>
          ({ l with commit_index := max (min i l.last_index) l.commit_index,
                    commit_term := e.term },
            Except.ok (max (min i l.last_index) l.commit_index))
        | none => (l, Except.error (Err.Internal "Entry at commit index does not exist")) := by
  simp only [Log.commit]
  by_cases he : max (min i l.last_index) l.commit_index = l.commit_index
  · rw [if_neg (not_not_intro he), if_pos he, he]
  · rw [if_pos he, if_neg he]

/-- **C3** (confirmed): `Log::commit` clamps the requested index to
`[commit_index, last_index]`; when the clamp equals the current
`commit_index` it just returns it, when it moves forward it sets
`commit_index` to the clamp, refreshes `commit_term` from the stored entry
there and returns the clamp, and an internal error (with the log
unchanged) is the only outcome when no entry is stored there.  In every
case `commit_index` never decreases. -/
theorem commit_clamps (l : Log) (i : Nat) (h : l.commit_index ≤ l.last_index) :
    l.commit_index ≤ ((l.commit i).1).commit_index ∧
    (min (max i l.commit_index) l.last_index = l.commit_index →
      l.commit i = (l, Except.ok l.commit_index)) ∧
    (∀ e, min (max i l.commit_index) l.last_index ≠ l.commit_index →
      l.get (min (max i l.commit_index) l.last_index) = some e →
      l.commit i =
        ({ l with commit_index := min (max i l.commit_index) l.last_index,
                  commit_term := e.term },
          Except.ok (min (max i l.commit_index) l.last_index))) ∧
    (min (max i l.commit_index) l.last_index ≠ l.commit_index →
      l.get (min (max i l.commit_index) l.last_index) = none →
      l.commit i = (l, Except.error (Err.Internal "Entry at commit index does not exist"))) := by
  have key : max (min i l.last_index) l.commit_index =
      min (max i l.commit_index) l.last_index := by omega
  have hc := commit_eq l i
  rw [key] at hc
  by_cases he : min (max i l.commit_index) l.last_index = l.commit_index
  · rw [if_pos he] at hc
    refine ⟨?_, fun _ => hc, fun e hne _ => absurd he hne, fun hne _ => absurd he hne⟩
    rw [hc]
  · rw [if_neg he] at hc
    cases hg : l.get (min (max i l.commit_index) l.last_index) with
    | some entry =>
      rw [hg] at hc
      refine ⟨?_, fun hcon => absurd hcon he, ?_, ?_⟩
      · rw [hc]
        exact le_min (le_max_right i l.commit_index) h
      · intro e _ hge
        cases hge
        exact hc
      · intro _ hgn
        exact Option.noConfusion hgn
    | none =>
      rw [hg] at hc
      refine ⟨?_, fun hcon => absurd hcon he, ?_, fun _ _ => hc⟩
      · rw [hc]
      · intro e _ hge
        exact Option.noConfusion hge

/-- A concrete log with three entries (terms 1, 2, 2) and commit index 1,
used to instantiate the commit theorem. -/
def commitDemoLog : Log :=
  { entries := [(1, ⟨1, some [1]⟩), (2, ⟨2, none⟩), (3, ⟨2, some [3]⟩)],
    stored_apply_index := none, stored_term := none, stored_voted_for := none,
    last_index := 3, last_term := 2, commit_index := 1, commit_term := 1,
    apply_index := 0, apply_term := 0 }

theorem commit_clamps_witness :
    commitDemoLog.commit 2 =
      ({ commitDemoLog with commit_index := 2, commit_term := 2 }, Except.ok 2) := by
  have hmain := (commit_clamps commitDemoLog 2 (by decide)).2.2.1
    (⟨2, none⟩ : Entry) (by decide) (by decide)
  simpa using hmain

/-! ### C10: apply on a gapped store silently no-ops -/

/-- **C10** (confirmed): when `commit_index > apply_index` but no entry is
stored at `apply_index + 1`, `Log::apply` leaves `apply_index` and
`apply_term` unchanged, re-persists the old `apply_index`, and returns
`Ok(Some((apply_index, empty output)))`; re-running it returns the very
same answer, so a caller looping until `apply` returns `None` never
terminates. -/
theorem apply_missing_entry (l : Log) (f : List Nat → Except Err (List Nat))
    (hc : l.apply_index < l.commit_index) (hg : l.get (l.apply_index + 1) = none) :
    l.apply f = ({ l with stored_apply_index := some l.apply_index },
                  Except.ok (some (l.apply_index, []))) ∧
    (l.apply f).1.apply_index = l.apply_index ∧
    (l.apply f).1.apply_term = l.apply_term ∧
    (l.apply f).1.commit_index = l.commit_index ∧
    (l.apply f).1.apply f = ((l.apply f).1, Except.ok (some (l.apply_index, []))) := by
  have hstep : l.apply f = ({ l with stored_apply_index := some l.apply_index },
      Except.ok (some (l.apply_index, []))) := by
    unfold Log.apply
    rw [if_neg (by omega), hg]
  refine ⟨hstep, by rw [hstep], by rw [hstep], by rw [hstep], ?_⟩
  rw [hstep]
  unfold Log.apply
  rw [if_neg (by simpa using Nat.not_le.mpr hc)]
  have hg' : ({ l with stored_apply_index := some l.apply_index } : Log).get
      (l.apply_index + 1) = none := hg
  rw [hg']

/-- A log whose store is inconsistent: an entry at index 2 but none at
index 1, while `commit_index = 1 > apply_index = 0`. -/
def gapLog : Log :=
  { entries := [(2, ⟨1, some [1]⟩)],
    stored_apply_index := none, stored_term := none, stored_voted_for := none,
    last_index := 2, last_term := 1, commit_index := 1, commit_term := 1,
    apply_index := 0, apply_term := 0 }

theorem apply_missing_entry_witness :
    gapLog.apply (fun _ => Except.ok []) =
      ({ gapLog with stored_apply_index := some 0 }, Except.ok (some (0, []))) ∧
    (gapLog.apply (fun _ => Except.ok [])).1.apply (fun _ => Except.ok []) =
      ((gapLog.apply (fun _ => Except.ok [])).1, Except.ok (some (0, []))) := by
  have hmain := apply_missing_entry gapLog (fun _ => Except.ok [])
    (by decide) (by decide)
  exact ⟨hmain.1, hmain.2.2.2.2⟩

/-! ### C2: the watermark invariant -/

/-- The watermark invariant of the spec:
`apply_index ≤ commit_index ≤ last_index`. -/
def Watermarks (l : Log) : Prop :=
  l.apply_index ≤ l.commit_index ∧ l.commit_index ≤ l.last_index

/-- Log states reachable from `Log::new` on a fresh store by sequences of
the public operations. -/
inductive Reachable : Log → Prop where
  | init : Reachable Log.init
  | append (l : Log) (e : Entry) : Reachable l → Reachable (l.append e).1
  | commit (l : Log) (i : Nat) : Reachable l → Reachable (l.commit i).1
  | apply (l : Log) (f : List Nat → Except Err (List Nat)) :
      Reachable l → Reachable (l.apply f).1
  | splice (l : Log) (b t : Nat) (E : List Entry) :
      Reachable l → Reachable (l.splice b t E).1
  | truncate (l : Log) (i : Nat) : Reachable l → Reachable (l.truncate i).1
  | save_term (l : Log) (t : Nat) (v : Option String) :
      Reachable l → Reachable (l.save_term t v)

theorem watermarks_append (l : Log) (e : Entry) (h : Watermarks l) :
    Watermarks (l.append e).1 :=
  ⟨h.1, Nat.le_succ_of_le h.2⟩

theorem watermarks_commit (l : Log) (i : Nat) (h : Watermarks l) :
    Watermarks (l.commit i).1 := by
  obtain ⟨h1, h2⟩ := h
  unfold Watermarks
  rw [commit_eq]
  by_cases he : max (min i l.last_index) l.commit_index = l.commit_index
  · rw [if_pos he]
    exact ⟨h1, h2⟩
  · rw [if_neg he]
    cases hg : l.get (max (min i l.last_index) l.commit_index) with
    | some entry =>
      exact ⟨le_trans h1 (le_max_right _ _), max_le (min_le_right _ _) h2⟩
    | none => exact ⟨h1, h2⟩

theorem watermarks_apply (l : Log) (f : List Nat → Except Err (List Nat))
    (h : Watermarks l) : Watermarks (l.apply f).1 := by
  obtain ⟨h1, h2⟩ := h
  by_cases hge : l.apply_index ≥ l.commit_index
  · unfold Watermarks Log.apply
    rw [if_pos hge]
    exact ⟨h1, h2⟩
  · have hlt : l.apply_index < l.commit_index := Nat.lt_of_not_le hge
    cases hg : l.get (l.apply_index + 1) with
    | some entry =>
      cases hcmd : entry.command with
      | some c =>
        cases hm : f c with
        | ok out =>
          unfold Watermarks Log.apply
          rw [if_neg hge]
          simp only [hg, hcmd, hm]
          exact ⟨hlt, h2⟩
        | error err =>
          unfold Watermarks Log.apply
          rw [if_neg hge]
          simp only [hg, hcmd, hm]
          exact ⟨h1, h2⟩
      | none =>
        unfold Watermarks Log.apply
        rw [if_neg hge]
        simp only [hg, hcmd]
        exact ⟨hlt, h2⟩
    | none =>
      unfold Watermarks Log.apply
      rw [if_neg hge]
      simp only [hg]
      exact ⟨h1, h2⟩

theorem watermarks_truncate (l : Log) (i : Nat) (h : Watermarks l) :
    Watermarks (l.truncate i).1 := by
  obtain ⟨h1, h2⟩ := h
  by_cases ha : i < l.apply_index
  · unfold Watermarks Log.truncate
    rw [if_pos ha]
    exact ⟨h1, h2⟩
  · by_cases hcm : i < l.commit_index
    · unfold Watermarks Log.truncate
      rw [if_neg ha, if_pos hcm]
      exact ⟨h1, h2⟩
    · unfold Watermarks Log.truncate
      rw [if_neg ha, if_neg hcm]
      exact ⟨h1, le_min (Nat.le_of_not_lt hcm) h2⟩

theorem watermarks_spliceEntries (E : List Entry) :
    ∀ (l : Log) (b i : Nat), Watermarks l →
      Watermarks (Log.spliceEntries l b i E).1 := by
  induction E with
  | nil => intro l b i h; exact h
  | cons e rest ih =>
    intro l b i h
    simp only [Log.spliceEntries]
    cases hg : l.get (b + i + 1) with
    | none => exact ih _ b (i + 1) (watermarks_append l e h)
    | some current =>
      by_cases ht : current.term = e.term
      · simpa [ht] using ih l b (i + 1) h
      · have hbt : (current.term == e.term) = false := beq_false_of_ne ht
        rcases htr : l.truncate (b + i + 1 - 1) with ⟨l', r⟩
        have hl' : Watermarks l' := by
          have hw := watermarks_truncate l (b + i + 1 - 1) h
          rw [htr] at hw
          exact hw
        cases r with
        | ok n =>
          simpa [hbt, htr] using ih (l'.append e).1 b (i + 1) (watermarks_append l' e hl')
        | error err => simpa [hbt, htr] using hl'

theorem watermarks_splice (l : Log) (b t : Nat) (E : List Entry)
    (h : Watermarks l) : Watermarks (l.splice b t E).1 := by
  unfold Log.splice
  split
  · rcases hs : Log.spliceEntries l b 0 E with ⟨l', r⟩
    have hw := watermarks_spliceEntries E l b 0 h
    rw [hs] at hw
    cases r with
    | ok u => exact hw
    | error err => exact hw
  · exact h

theorem watermarks_save_term (l : Log) (t : Nat) (v : Option String)
    (h : Watermarks l) : Watermarks (l.save_term t v) := by
  obtain ⟨h1, h2⟩ := h
  unfold Watermarks Log.save_term
  by_cases ht : t > 0
  · rw [if_pos ht]
    cases v <;> exact ⟨h1, h2⟩
  · rw [if_neg ht]
    cases v <;> exact ⟨h1, h2⟩

/-- **C2** (confirmed): every log state reachable from `Log::new` on a
fresh store by any sequence of the public operations (append, commit,
apply, splice, truncate, save_term) satisfies
`apply_index ≤ commit_index ≤ last_index`. -/
theorem reachable_watermarks (l : Log) (h : Reachable l) :
    l.apply_index ≤ l.commit_index ∧ l.commit_index ≤ l.last_index := by
  induction h with
  | init => exact ⟨Nat.le_refl 0, Nat.le_refl 0⟩
  | append l e _ ih => exact watermarks_append l e ih
  | commit l i _ ih => exact watermarks_commit l i ih
  | apply l f _ ih => exact watermarks_apply l f ih
  | splice l b t E _ ih => exact watermarks_splice l b t E ih
  | truncate l i _ ih => exact watermarks_truncate l i ih
  | save_term l t v _ ih => exact watermarks_save_term l t v ih

theorem reachable_watermarks_witness :
    (((Log.init.append ⟨1, some [1]⟩).1.commit 1).1.apply_index ≤
      ((Log.init.append ⟨1, some [1]⟩).1.commit 1).1.commit_index) ∧
    (((Log.init.append ⟨1, some [1]⟩).1.commit 1).1.commit_index ≤
      ((Log.init.append ⟨1, some [1]⟩).1.commit 1).1.last_index) :=
  reachable_watermarks _
    (Reachable.commit _ 1 (Reachable.append _ _ Reachable.init))

/-! ### The follower node (`src/raft/node/follower.rs`, `src/raft/node/mod.rs`,
`src/raft/transport.rs`) -/

/-- Timing constants from `src/raft/node/mod.rs`: the interval between
leader heartbeats, in ticks. -/
def HEARTBEAT_INTERVAL : Nat := 1

/-- The minimum election timeout, in ticks. -/
def ELECTION_TIMEOUT_MIN : Nat := 8 * HEARTBEAT_INTERVAL

/-- The maximum election timeout, in ticks. -/
def ELECTION_TIMEOUT_MAX : Nat := 15 * HEARTBEAT_INTERVAL

/-- The `rand` crate's `gen_range(lo..hi)` samples uniformly from the
half-open integer range `[lo, hi)`: with `r` the uniformly random draw it
is modelled as `lo + r % (hi - lo)`. -/
def gen_range (lo hi r : Nat) : Nat := lo + r % (hi - lo)

/-- The follower role state (`Follower` in `src/raft/node/follower.rs`).
`proxy_calls` maps call IDs to the optional originator node. -/
structure FollowerRole where
  leader : Option String
  leader_seen_ticks : Nat
  leader_seen_timeout : Nat
  voted_for : Option String
  proxy_calls : List (List Nat × Option String)
deriving DecidableEq, Repr

/-- `Follower::new`: the election timeout is drawn through
`rand::thread_rng().gen_range(ELECTION_TIMEOUT_MIN..ELECTION_TIMEOUT_MAX)`;
the random draw is made explicit as the argument `r`. -/
def Follower.new (leader : Option String) (voted_for : Option String) (r : Nat) :
    FollowerRole :=
  { leader := leader, leader_seen_ticks := 0,
    leader_seen_timeout := gen_range ELECTION_TIMEOUT_MIN ELECTION_TIMEOUT_MAX r,
    voted_for := voted_for, proxy_calls := [] }

/-- The events of `src/raft/transport.rs` (the misspelled Rust field
`has_commited` is kept). -/
inductive Event where
  | Heartbeat (commit_index commit_term : Nat)
  | ConfirmLeader (commit_index : Nat) (has_commited : Bool)
  | SolicitVote (last_index last_term : Nat)
  | GrantVote
  | ReplicateEntries (base_index base_term : Nat) (entries : List Entry)
  | AcceptEntries (last_index : Nat)
  | RejectEntries
  | ReadState (call_id command : List Nat)
  | MutateState (call_id command : List Nat)
  | RespondState (call_id respone : List Nat)
  | RespondError (call_id : List Nat) (error : String)
deriving DecidableEq, Repr

/-- A message between Raft nodes.  The Rust fields `from` and `to` are
named `src` and `dst` here (`from` is reserved in Lean); `none` marks a
local sender or receiver. -/
structure Message where
  term : Nat
  src : Option String
  dst : Option String
  event : Event
deriving DecidableEq, Repr

/-- The role-node envelope specialized to a follower (`RoleNode<Follower>`).
The crossbeam sender is replaced by returning the list of sent messages. -/
structure FollowerNode where
  id : String
  peers : List String
  term : Nat
  log : Log
  role : FollowerRole
deriving DecidableEq, Repr

/-- `RoleNode::send`: wraps an event into a message with
`from = Some(self.id)` and `term = self.term`. -/
def mkSend (n : FollowerNode) (dst : Option String) (e : Event) : Message :=
  { term := n.term, src := some n.id, dst := dst, event := e }

/-- `RoleNode::<Follower>::is_message_sent_from_leader`. -/
def is_message_sent_from_leader (n : FollowerNode) (src : Option String) : Bool :=
  match n.role.leader, src with
  | some leader, some claimer => claimer == leader
  | _, _ => false

/-- `RoleNode::save_term`: persists through the log and updates the local
term. -/
def FollowerNode.save_term (n : FollowerNode) (term : Nat)
    (voted_for : Option String) : FollowerNode :=
  { n with log := n.log.save_term term voted_for, term := term }

/-- `RoleNode::<Follower>::process_event`: the event dispatch of a
follower.  The returned triple is the updated node, the messages it sent
(in order), and the `Result` of the call. -/
def FollowerNode.process_event (n : FollowerNode) (msg : Message) :
    (FollowerNode × List Message) × Except Err Unit :=
  match msg.event with
  | Event.Heartbeat commit_index commit_term =>
    if is_message_sent_from_leader n msg.src then
      let has_committed := n.log.has commit_index commit_term
      let out := [mkSend n msg.src (Event.ConfirmLeader commit_index has_committed)]
      if has_committed then
        match n.log.commit commit_index with
        | (log', Except.ok _) => (({ n with log := log' }, out), Except.ok ())
        | (log', Except.error e) => (({ n with log := log' }, out), Except.error e)
      else
        ((n, out), Except.ok ())
    else
      ((n, []), Except.ok ())
  | Event.SolicitVote last_index last_term =>
    if (match n.role.voted_for, msg.src with
        | some v, some s => v != s
        | _, _ => false) then
      ((n, []), Except.ok ())
    else if last_term < n.log.last_term then
      ((n, []), Except.ok ())
    else if last_term = n.log.last_term ∧ last_index < n.log.last_index then
      ((n, []), Except.ok ())
    else
      match msg.src with
      | some s =>
        let out := [mkSend n (some s) Event.GrantVote]
        let n' := n.save_term n.term (some s)
        (({ n' with role := { n'.role with voted_for := some s } }, out), Except.ok ())
      | none => ((n, []), Except.ok ())
  | Event.ReplicateEntries base_index base_term entries =>
    if is_message_sent_from_leader n msg.src then
      match n.log.splice base_index base_term entries with
      | (log', Except.ok last_index) =>
        (({ n with log := log' },
          [mkSend n msg.src (Event.AcceptEntries last_index)]), Except.ok ())
      | (log', Except.error (Err.RaftBaseNotFound _ _)) =>
        (({ n with log := log' }, [mkSend n msg.src Event.RejectEntries]), Except.ok ())
      | (log', Except.error e) => (({ n with log := log' }, []), Except.error e)
    else
      ((n, []), Except.ok ())
  | Event.ReadState call_id command =>
    let n' := { n with role :=
      { n.role with proxy_calls := mapSet n.role.proxy_calls call_id msg.src } }
    ((n', [mkSend n' n'.role.leader (Event.ReadState call_id command)]), Except.ok ())
  | Event.MutateState call_id command =>
    let n' := { n with role :=
      { n.role with proxy_calls := mapSet n.role.proxy_calls call_id msg.src } }
    ((n', [mkSend n' n'.role.leader (Event.MutateState call_id command)]), Except.ok ())
  | Event.RespondState call_id respone =>
    match mapGet n.role.proxy_calls call_id with
    | some dst =>
      let n' := { n with role :=
        { n.role with proxy_calls := mapDelete n.role.proxy_calls call_id } }
      ((n', [mkSend n' dst (Event.RespondState call_id respone)]), Except.ok ())
    | none => ((n, []), Except.ok ())
  | Event.RespondError call_id error =>
    match mapGet n.role.proxy_calls call_id with
    | some dst =>
      let n' := { n with role :=
        { n.role with proxy_calls := mapDelete n.role.proxy_calls call_id } }
      ((n', [mkSend n' dst (Event.RespondError call_id error)]), Except.ok ())
    | none => ((n, []), Except.ok ())
  | Event.ConfirmLeader _ _ => ((n, []), Except.ok ())
  | Event.GrantVote => ((n, []), Except.ok ())
  | Event.AcceptEntries _ => ((n, []), Except.ok ())
  | Event.RejectEntries => ((n, []), Except.ok ())

/-! ### C8: the election timeout is drawn from a half-open range -/

/-- **C8** (counterexample): the claim says every value of 8 through 15
inclusive is a possible timeout; in fact `gen_range(8..15)` is half-open,
so 15 is never drawn, whatever the random draw. -/
theorem election_timeout_never_max :
    ¬ ∃ r, (Follower.new none none r).leader_seen_timeout = ELECTION_TIMEOUT_MAX := by
  rintro ⟨r, hr⟩
  simp [Follower.new, gen_range, ELECTION_TIMEOUT_MIN, ELECTION_TIMEOUT_MAX,
    HEARTBEAT_INTERVAL] at hr
  omega

/-- **C8** (corrected): the election timeout drawn in `Follower::new` is
uniform over the half-open range
`[ELECTION_TIMEOUT_MIN = 8, ELECTION_TIMEOUT_MAX = 15)`: it equals
`8 + r % 7` for the uniform draw `r`, every value of 8 through 14
inclusive is possible, and no value outside that range (in particular
never 15) occurs. -/
theorem election_timeout_range (r : Nat) :
    ELECTION_TIMEOUT_MIN ≤ (Follower.new none none r).leader_seen_timeout ∧
    (Follower.new none none r).leader_seen_timeout < ELECTION_TIMEOUT_MAX ∧
    (Follower.new none none r).leader_seen_timeout =
      ELECTION_TIMEOUT_MIN + r % (ELECTION_TIMEOUT_MAX - ELECTION_TIMEOUT_MIN) ∧
    (∀ v, ELECTION_TIMEOUT_MIN ≤ v → v < ELECTION_TIMEOUT_MAX →
      ∃ r', (Follower.new none none r').leader_seen_timeout = v) := by
  refine ⟨?_, ?_, rfl, ?_⟩
  · simp [Follower.new, gen_range, ELECTION_TIMEOUT_MIN, HEARTBEAT_INTERVAL]
  · simp only [Follower.new, gen_range, ELECTION_TIMEOUT_MIN, ELECTION_TIMEOUT_MAX,
      HEARTBEAT_INTERVAL]
    omega
  · intro v h1 h2
    refine ⟨v - ELECTION_TIMEOUT_MIN, ?_⟩
    simp only [Follower.new, gen_range, ELECTION_TIMEOUT_MIN, ELECTION_TIMEOUT_MAX,
      HEARTBEAT_INTERVAL] at *
    omega

theorem election_timeout_range_witness :
    (Follower.new none none 3).leader_seen_timeout = 11 ∧
    ∃ r', (Follower.new none none r').leader_seen_timeout = 14 :=
  ⟨((election_timeout_range 3).2.2.1).trans (by decide),
    (election_timeout_range 3).2.2.2 14 (by decide) (by decide)⟩

/-! ### Contiguity: stored entries occupy exactly `1..last_index` -/

/-- A log whose entries are stored exactly at the indices
`1, ..., last_index`, as holds for every log the operations build from a
fresh store. -/
def Contiguous (l : Log) : Prop :=
  ∀ i : Nat, (l.get i).isSome ↔ (1 ≤ i ∧ i ≤ l.last_index)

/-- `Log::save_term` only touches the persisted term and vote keys. -/
theorem save_term_fields (l : Log) (t : Nat) (v : Option String) :
    (l.save_term t v).entries = l.entries ∧
    (l.save_term t v).last_index = l.last_index ∧
    (l.save_term t v).last_term = l.last_term ∧
    (l.save_term t v).commit_index = l.commit_index ∧
    (l.save_term t v).apply_index = l.apply_index ∧
    (l.save_term t v).stored_voted_for = v := by
  unfold Log.save_term
  cases v <;> by_cases ht : t > 0 <;> simp [ht]

/-- On a contiguous log whose commit does not exceed its last index,
`Log::commit` always succeeds and commits exactly the requested index
clamped into `[commit_index, last_index]`. -/
theorem commit_total (l : Log) (ci : Nat) (hcontig : Contiguous l)
    (hcl : l.commit_index ≤ l.last_index) :
    (l.commit ci).2 = Except.ok (min (max ci l.commit_index) l.last_index) ∧
    (l.commit ci).1.commit_index = min (max ci l.commit_index) l.last_index ∧
    (l.commit ci).1.entries = l.entries ∧
    (l.commit ci).1.last_index = l.last_index ∧
    (l.commit ci).1.apply_index = l.apply_index := by
  have key : max (min ci l.last_index) l.commit_index =
      min (max ci l.commit_index) l.last_index := by omega
  have hc := commit_eq l ci
  rw [key] at hc
  by_cases he : min (max ci l.commit_index) l.last_index = l.commit_index
  · rw [if_pos he] at hc
    rw [hc]
    exact ⟨by rw [he], by rw [he], rfl, rfl, rfl⟩
  · rw [if_neg he] at hc
    have hsome : (l.get (min (max ci l.commit_index) l.last_index)).isSome :=
      (hcontig _).mpr ⟨by omega, by omega⟩
    obtain ⟨e, hge⟩ := Option.isSome_iff_exists.mp hsome
    rw [hge] at hc
    rw [hc]
    exact ⟨rfl, rfl, rfl, rfl, rfl⟩

/-! ### C5: the heartbeat handler -/

/-- A heartbeat message addressed to follower `n` by `L` at the
follower's own term. -/
def heartbeatMsg (n : FollowerNode) (L : String) (ci ct : Nat) : Message :=
  { term := n.term, src := some L, dst := some n.id, event := Event.Heartbeat ci ct }

/-- The follower of the spec's heartbeat scenario: node "a" with peers
b, c, d, e at term 3 following leader "b"; log entries with terms 1, 1, 2
at indices 1..3, `commit_index = 2`, `apply_index = 1`. -/
def demoFollower : FollowerNode :=
  { id := "a", peers := ["b", "c", "d", "e"], term := 3,
    log := { entries := [(1, ⟨1, some [1]⟩), (2, ⟨1, some [2]⟩), (3, ⟨2, some [3]⟩)],
             stored_apply_index := some 1, stored_term := some 3,
             stored_voted_for := none,
             last_index := 3, last_term := 2, commit_index := 2, commit_term := 1,
             apply_index := 1, apply_term := 1 },
    role := { leader := some "b", leader_seen_ticks := 0, leader_seen_timeout := 10,
              voted_for := none, proxy_calls := [] } }

theorem demoFollower_contig : Contiguous demoFollower.log := by
  intro i
  simp only [demoFollower, Log.get, mapGet]
  by_cases h1 : (1 : Nat) = i
  · subst h1; simp
  · by_cases h2 : (2 : Nat) = i
    · subst h2; simp
    · by_cases h3 : (3 : Nat) = i
      · subst h3; simp
      · simp only [h1, h2, h3, if_false]
        simp
        omega

/-- **C5** (counterexample): the claim says the follower "advances the log
commit to commit_index exactly when has_committed is true".  With local
commit 2, a heartbeat from the leader with `commit_index = 1` (stored term
1) yields `has_committed = true`, yet the commit index stays 2 — it is not
advanced (nor moved) to 1. -/
theorem heartbeat_advance_cex :
    demoFollower.log.has 1 1 = true ∧
    (demoFollower.process_event (heartbeatMsg demoFollower "b" 1 1)).1.2 =
      [mkSend demoFollower (some "b") (Event.ConfirmLeader 1 true)] ∧
    (demoFollower.process_event (heartbeatMsg demoFollower "b" 1 1)).1.1.log.commit_index
      = 2 ∧
    (2 : Nat) ≠ 1 := by decide

/-- **C5** (corrected): a follower receiving `Heartbeat{ci, ct}` from its
current leader replies `ConfirmLeader{ci, has_committed}` with
`has_committed = log.has(ci, ct)`; when `has_committed` is false the node
is unchanged, and when it is true the follower calls `log.commit(ci)`,
which sets the commit index to `ci` clamped into
`[commit_index, last_index]` — never decreasing it.  (In the spec's
concrete scenario — entries at terms 1,1,2, commit 2 — a
`Heartbeat{3, 2}` yields `ConfirmLeader{3, true}` and commit 3; see the
witness.) -/
theorem heartbeat_behavior (n : FollowerNode) (L : String) (ci ct : Nat)
    (hl : n.role.leader = some L) (hcontig : Contiguous n.log)
    (hcl : n.log.commit_index ≤ n.log.last_index) :
    (n.process_event (heartbeatMsg n L ci ct)).1.2 =
      [mkSend n (some L) (Event.ConfirmLeader ci (n.log.has ci ct))] ∧
    (n.process_event (heartbeatMsg n L ci ct)).2 = Except.ok () ∧
    (n.log.has ci ct = false →
      (n.process_event (heartbeatMsg n L ci ct)).1.1 = n) ∧
    (n.log.has ci ct = true →
      (n.process_event (heartbeatMsg n L ci ct)).1.1.log.commit_index =
        min (max ci n.log.commit_index) n.log.last_index ∧
      n.log.commit_index ≤
        (n.process_event (heartbeatMsg n L ci ct)).1.1.log.commit_index) := by
  have hleader : is_message_sent_from_leader n (some L) = true := by
    simp [is_message_sent_from_leader, hl]
  cases hhc : n.log.has ci ct with
  | false =>
    have hr : n.process_event (heartbeatMsg n L ci ct) =
        ((n, [mkSend n (some L) (Event.ConfirmLeader ci false)]), Except.ok ()) := by
      simp [FollowerNode.process_event, heartbeatMsg, hleader, hhc]
    rw [hr]
    exact ⟨rfl, rfl, fun _ => rfl, fun hcon => absurd hcon (by decide)⟩
  | true =>
    obtain ⟨hres, hcomm, hent, hlast, happ⟩ := commit_total n.log ci hcontig hcl
    rcases hcm : n.log.commit ci with ⟨log', res⟩
    rw [hcm] at hres hcomm hent hlast happ
    dsimp only at hres hcomm hent hlast happ
    cases res with
    | error err => exact absurd hres (by simp)
    | ok v =>
      have hr : n.process_event (heartbeatMsg n L ci ct) =
          (({ n with log := log' },
            [mkSend n (some L) (Event.ConfirmLeader ci true)]), Except.ok ()) := by
        simp [FollowerNode.process_event, heartbeatMsg, hleader, hhc, hcm]
      rw [hr]
      refine ⟨rfl, rfl, fun hcon => absurd hcon (by decide), fun _ => ⟨hcomm, ?_⟩⟩
      exact le_trans (by omega) (le_of_eq hcomm.symm)

theorem heartbeat_behavior_witness :
    (demoFollower.process_event (heartbeatMsg demoFollower "b" 3 2)).1.2 =
      [mkSend demoFollower (some "b") (Event.ConfirmLeader 3 true)] ∧
    (demoFollower.process_event (heartbeatMsg demoFollower "b" 3 2)).1.1.log.commit_index
      = 3 := by
  obtain ⟨h1, h2, h3, h4⟩ :=
    heartbeat_behavior demoFollower "b" 3 2 rfl demoFollower_contig (by decide)
  have hhc : demoFollower.log.has 3 2 = true := by decide
  constructor
  · rw [h1, hhc]
  · rw [(h4 hhc).1]
    decide

/-! ### C4: the vote solicitation handler -/

/-- A vote solicitation addressed to follower `n` by `s` at the
follower's own term. -/
def solicitMsg (n : FollowerNode) (s : String) (li lt : Nat) : Message :=
  { term := n.term, src := some s, dst := some n.id,
    event := Event.SolicitVote li lt }

/-- The follower after granting its vote to `s`: the current term is
re-saved together with `voted_for = s` (persisting the vote) and the role
records the vote. -/
def grantNode (n : FollowerNode) (s : String) : FollowerNode :=
  let n' := n.save_term n.term (some s)
  { n' with role := { n'.role with voted_for := some s } }

/-- **C4** (confirmed): a follower processing `SolicitVote{li, lt}` from
sender `s`: if `voted_for` is set and differs from `s` the message is
ignored with no reply and no state change; otherwise the vote is withheld
exactly when `lt < local_last_term`, or the terms are equal and
`li < local_last_index`; in all remaining cases the follower replies
`GrantVote` to `s` and persists `voted_for = s`, so that the same solicit
processed again is granted again. -/
theorem solicit_vote_behavior (n : FollowerNode) (s : String) (li lt : Nat) :
    (∀ v, n.role.voted_for = some v → v ≠ s →
      n.process_event (solicitMsg n s li lt) = ((n, []), Except.ok ())) ∧
    ((n.role.voted_for = none ∨ n.role.voted_for = some s) →
      (lt < n.log.last_term ∨ (lt = n.log.last_term ∧ li < n.log.last_index)) →
      n.process_event (solicitMsg n s li lt) = ((n, []), Except.ok ())) ∧
    ((n.role.voted_for = none ∨ n.role.voted_for = some s) →
      ¬ lt < n.log.last_term →
      ¬ (lt = n.log.last_term ∧ li < n.log.last_index) →
      n.process_event (solicitMsg n s li lt) =
        ((grantNode n s, [mkSend n (some s) Event.GrantVote]), Except.ok ()) ∧
      (grantNode n s).log.stored_voted_for = some s ∧
      (grantNode n s).role.voted_for = some s ∧
      ((grantNode n s).process_event (solicitMsg (grantNode n s) s li lt)).1.2 =
        [mkSend (grantNode n s) (some s) Event.GrantVote]) := by
  refine ⟨?_, ?_, ?_⟩
  · intro v hv hvs
    simp [FollowerNode.process_event, solicitMsg, hv, hvs]
  · rintro (hv | hv) hlog
    · rcases hlog with hlt | ⟨heq, hli⟩
      · simp [FollowerNode.process_event, solicitMsg, hv, hlt]
      · subst heq
        simp [FollowerNode.process_event, solicitMsg, hv, hli]
    · rcases hlog with hlt | ⟨heq, hli⟩
      · simp [FollowerNode.process_event, solicitMsg, hv, hlt]
      · subst heq
        simp [FollowerNode.process_event, solicitMsg, hv, hli]
  · rintro hv hnl hne
    have hkey : n.process_event (solicitMsg n s li lt) =
        ((grantNode n s, [mkSend n (some s) Event.GrantVote]), Except.ok ()) := by
      rcases hv with hv | hv
      · simp [FollowerNode.process_event, solicitMsg, hv, hnl, hne, grantNode]
      · simp [FollowerNode.process_event, solicitMsg, hv, hnl, hne, grantNode]
    have hvg : (grantNode n s).role.voted_for = some s := rfl
    have hlterm : (grantNode n s).log.last_term = n.log.last_term :=
      (save_term_fields n.log n.term (some s)).2.2.1
    have hlidx : (grantNode n s).log.last_index = n.log.last_index :=
      (save_term_fields n.log n.term (some s)).2.1
    refine ⟨hkey, rfl, hvg, ?_⟩
    simp [FollowerNode.process_event, solicitMsg, hvg, hlterm, hlidx, hnl, hne]

theorem solicit_vote_behavior_witness :
    demoFollower.process_event (solicitMsg demoFollower "c" 3 2) =
      ((grantNode demoFollower "c",
        [mkSend demoFollower (some "c") Event.GrantVote]), Except.ok ()) ∧
    (grantNode demoFollower "c").role.voted_for = some "c" ∧
    (grantNode demoFollower "c").log.stored_voted_for = some "c" := by
  obtain ⟨hmain, hst, hrole, hrep⟩ :=
    (solicit_vote_behavior demoFollower "c" 3 2).2.2 (Or.inl rfl)
      (by decide) (by decide)
  exact ⟨hmain, hrole, hst⟩

/-! ### C6: term monotonicity along the index order -/

/-- The term stored at an index (0 when no entry is stored, matching the
source's `map_or(0, |e| e.term)` readings). -/
def termAt (l : Log) (i : Nat) : Nat :=
  match l.get i with
  | some e => e.term
  | none => 0

/-- Terms are monotone along the index order over the stored entries. -/
def TermMono (l : Log) : Prop :=
  ∀ i j ei ej, i ≤ j → l.get i = some ei → l.get j = some ej → ei.term ≤ ej.term

/-- The cached `last_term` agrees with the stored entry at `last_index`. -/
def LastTermOK (l : Log) : Prop :=
  l.last_term = termAt l l.last_index

/-- Well-formedness of a log: contiguous entries, an accurate cached
`last_term`, and monotone terms. -/
def WF (l : Log) : Prop :=
  Contiguous l ∧ LastTermOK l ∧ TermMono l

/-- Well-formedness only depends on the entries map and the last
index/term. -/
theorem WF_congr (l l' : Log) (he : l'.entries = l.entries)
    (hli : l'.last_index = l.last_index) (hlt : l'.last_term = l.last_term)
    (h : WF l) : WF l' := by
  obtain ⟨hc, hl, hm⟩ := h
  have hget : ∀ i, l'.get i = l.get i := fun i => by
    unfold Log.get
    rw [he]
  refine ⟨?_, ?_, ?_⟩
  · intro i
    rw [hget i, hli]
    exact hc i
  · unfold LastTermOK termAt at *
    rw [hlt, hli, hget]
    exact hl
  · intro a b ea eb hab h1 h2
    rw [hget a] at h1
    rw [hget b] at h2
    exact hm a b ea eb hab h1 h2

/-- `Log::commit` only moves the commit watermark. -/
theorem commit_fields (l : Log) (i : Nat) :
    (l.commit i).1.entries = l.entries ∧
    (l.commit i).1.last_index = l.last_index ∧
    (l.commit i).1.last_term = l.last_term ∧
    (l.commit i).1.apply_index = l.apply_index := by
  rw [commit_eq]
  by_cases he : max (min i l.last_index) l.commit_index = l.commit_index
  · rw [if_pos he]
    exact ⟨rfl, rfl, rfl, rfl⟩
  · rw [if_neg he]
    cases hg : l.get (max (min i l.last_index) l.commit_index) with
    | some entry => exact ⟨rfl, rfl, rfl, rfl⟩
    | none => exact ⟨rfl, rfl, rfl, rfl⟩

/-- `Log::apply` only moves the apply watermark (and its persisted copy). -/
theorem apply_fields (l : Log) (f : List Nat → Except Err (List Nat)) :
    (l.apply f).1.entries = l.entries ∧
    (l.apply f).1.last_index = l.last_index ∧
    (l.apply f).1.last_term = l.last_term ∧
    (l.apply f).1.commit_index = l.commit_index := by
  by_cases hge : l.apply_index ≥ l.commit_index
  · unfold Log.apply
    rw [if_pos hge]
    exact ⟨rfl, rfl, rfl, rfl⟩
  · cases hg : l.get (l.apply_index + 1) with
    | some entry =>
      cases hcmd : entry.command with
      | some c =>
        cases hm : f c with
        | ok out =>
          unfold Log.apply
          rw [if_neg hge]
          simp [hg, hcmd, hm]
        | error err =>
          unfold Log.apply
          rw [if_neg hge]
          simp [hg, hcmd, hm]
      | none =>
        unfold Log.apply
        rw [if_neg hge]
        simp [hg, hcmd]
    | none =>
      unfold Log.apply
      rw [if_neg hge]
      simp [hg]

/-- Appending an entry whose term dominates `last_term` preserves
well-formedness. -/
theorem WF_append (l : Log) (e : Entry) (h : WF l) (hle : l.last_term ≤ e.term) :
    WF (l.append e).1 := by
  obtain ⟨hc, hl, hm⟩ := h
  have hget : ∀ j, (l.append e).1.get j =
      if j = l.last_index + 1 then some e else l.get j := by
    intro j
    unfold Log.get Log.append
    dsimp only
    rw [mapGet_mapSet]
  have hli : (l.append e).1.last_index = l.last_index + 1 := rfl
  refine ⟨?_, ?_, ?_⟩
  · intro j
    rw [hget j, hli]
    by_cases hj : j = l.last_index + 1
    · rw [if_pos hj]
      simp only [Option.isSome_some, true_iff]
      omega
    · rw [if_neg hj, hc j]
      omega
  · unfold LastTermOK termAt
    rw [hli, hget (l.last_index + 1), if_pos rfl]
    rfl
  · intro a b ea eb hab h1 h2
    rw [hget a] at h1
    rw [hget b] at h2
    by_cases hb : b = l.last_index + 1
    · rw [if_pos hb] at h2
      cases h2
      by_cases ha : a = l.last_index + 1
      · rw [if_pos ha] at h1
        cases h1
        exact le_rfl
      · rw [if_neg ha] at h1
        have hstored : 1 ≤ a ∧ a ≤ l.last_index := (hc a).mp (by rw [h1]; rfl)
        obtain ⟨el, hel⟩ := Option.isSome_iff_exists.mp
          ((hc l.last_index).mpr ⟨by omega, le_rfl⟩)
        have h1le : ea.term ≤ el.term := hm a l.last_index ea el hstored.2 h1 hel
        have hterm : l.last_term = el.term := by
          unfold LastTermOK termAt at hl
          simp only [hel] at hl
          exact hl
        exact le_trans h1le (hterm ▸ hle)
    · rw [if_neg hb] at h2
      have hbst : 1 ≤ b ∧ b ≤ l.last_index := (hc b).mp (by rw [h2]; rfl)
      by_cases ha : a = l.last_index + 1
      · exact absurd hab (by omega)
      · rw [if_neg ha] at h1
        exact hm a b ea eb hab h1 h2

/-- Characterization of a successful `Log::truncate`: entries above
`index` are deleted, `last_index` becomes `min index last_index`, and
`last_term` is re-read from the store. -/
theorem truncate_ok (l : Log) (index : Nat) (ha : ¬ index < l.apply_index)
    (hcm : ¬ index < l.commit_index) :
    (l.truncate index).1.last_index = min index l.last_index ∧
    (∀ j, (l.truncate index).1.get j =
      if index + 1 ≤ j ∧ j ≤ l.last_index then none else l.get j) ∧
    (l.truncate index).2 = Except.ok (min index l.last_index) ∧
    (l.truncate index).1.last_term =
      termAt (l.truncate index).1 (min index l.last_index) ∧
    (l.truncate index).1.commit_index = l.commit_index ∧
    (l.truncate index).1.apply_index = l.apply_index := by
  unfold Log.truncate
  rw [if_neg ha, if_neg hcm]
  dsimp only
  refine ⟨rfl, ?_, rfl, ?_, rfl, rfl⟩
  · intro j
    show mapGet (mapDeleteFrom l.entries (index + 1) (l.last_index - index)) j = _
    rw [mapGet_mapDeleteFrom]
    have hiff : (index + 1 ≤ j ∧ j < index + 1 + (l.last_index - index)) ↔
        (index + 1 ≤ j ∧ j ≤ l.last_index) := by omega
    rw [if_congr hiff rfl rfl]
    rfl
  · rfl

/-- `Log::truncate` preserves well-formedness. -/
theorem WF_truncate (l : Log) (i : Nat) (h : WF l) : WF (l.truncate i).1 := by
  by_cases ha : i < l.apply_index
  · unfold Log.truncate
    rw [if_pos ha]
    exact h
  · by_cases hcm : i < l.commit_index
    · unfold Log.truncate
      rw [if_neg ha, if_pos hcm]
      exact h
    · obtain ⟨hli, hget, hres, hlt, _, _⟩ := truncate_ok l i ha hcm
      obtain ⟨hc, hl, hm⟩ := h
      refine ⟨?_, ?_, ?_⟩
      · intro j
        rw [hget j, hli]
        by_cases hd : i + 1 ≤ j ∧ j ≤ l.last_index
        · rw [if_pos hd]
          simp only [Option.isSome_none, Bool.false_eq_true, false_iff]
          omega
        · rw [if_neg hd, hc j]
          omega
      · unfold LastTermOK
        rw [hli]
        exact hlt
      · intro a b ea eb hab h1 h2
        rw [hget a] at h1
        rw [hget b] at h2
        by_cases hda : i + 1 ≤ a ∧ a ≤ l.last_index
        · rw [if_pos hda] at h1
          exact Option.noConfusion h1
        · rw [if_neg hda] at h1
          by_cases hdb : i + 1 ≤ b ∧ b ≤ l.last_index
          · rw [if_pos hdb] at h2
            exact Option.noConfusion h2
          · rw [if_neg hdb] at h2
            exact hm a b ea eb hab h1 h2

/-- The splice loop preserves well-formedness when the incoming batch's
terms, seeded by the term stored just below the first target, are
nondecreasing. -/
theorem WF_spliceEntries (E : List Entry) :
    ∀ (l : Log) (b i : Nat), WF l → b + i ≤ l.last_index →
      List.Chain (fun x y => x ≤ y) (termAt l (b + i)) (E.map Entry.term) →
      WF (Log.spliceEntries l b i E).1 := by
  induction E with
  | nil =>
    intro l b i h _ _
    exact h
  | cons e rest ih =>
    intro l b i h hb hchain
    have hhead : termAt l (b + i) ≤ e.term := by
      cases hchain with
      | cons h1 _ => exact h1
    have htail : List.Chain (fun x y => x ≤ y) e.term (rest.map Entry.term) := by
      cases hchain with
      | cons _ h2 => exact h2
    cases hg : l.get (b + i + 1) with
    | none =>
      have hstep : Log.spliceEntries l b i (e :: rest) =
          Log.spliceEntries (l.append e).1 b (i + 1) rest := by
        simp only [Log.spliceEntries, hg]
      have hlast : b + i = l.last_index := by
        have hiff := h.1 (b + i + 1)
        rw [hg] at hiff
        simp at hiff
        omega
      have hlterm : l.last_term ≤ e.term := by
        have h2 := h.2.1
        unfold LastTermOK at h2
        rw [h2, ← hlast]
        exact hhead
      rw [hstep]
      refine ih (l.append e).1 b (i + 1) (WF_append l e h hlterm) ?_ ?_
      · show b + (i + 1) ≤ (l.append e).1.last_index
        have : (l.append e).1.last_index = l.last_index + 1 := rfl
        omega
      · have hta : termAt (l.append e).1 (b + (i + 1)) = e.term := by
          show termAt (l.append e).1 (b + i + 1) = e.term
          unfold termAt Log.get Log.append
          dsimp only
          rw [mapGet_mapSet, if_pos (by omega)]
        rw [hta]
        exact htail
    | some current =>
      have htarget : 1 ≤ b + i + 1 ∧ b + i + 1 ≤ l.last_index := by
        have hiff := h.1 (b + i + 1)
        rw [hg] at hiff
        exact hiff.mp rfl
      by_cases ht : current.term = e.term
      · have hbt : (current.term == e.term) = true := beq_iff_eq.mpr ht
        have hstep : Log.spliceEntries l b i (e :: rest) =
            Log.spliceEntries l b (i + 1) rest := by
          simp only [Log.spliceEntries, hg, hbt, if_true]
        rw [hstep]
        refine ih l b (i + 1) h (by omega) ?_
        have hta : termAt l (b + (i + 1)) = e.term := by
          show termAt l (b + i + 1) = e.term
          unfold termAt
          rw [hg]
          exact ht
        rw [hta]
        exact htail
      · have hbt : (current.term == e.term) = false := beq_false_of_ne ht
        by_cases hta2 : b + i + 1 - 1 < l.apply_index
        · have htr : l.truncate (b + i + 1 - 1) =
              (l, Except.error (Err.Value "Cannot remove applied log entry")) := by
            unfold Log.truncate
            rw [if_pos hta2]
          have hstep : Log.spliceEntries l b i (e :: rest) =
              (l, Except.error (Err.Value "Cannot remove applied log entry")) := by
            simp only [Log.spliceEntries, hg, hbt, Bool.false_eq_true, if_false, htr]
          rw [hstep]
          exact h
        · by_cases htc2 : b + i + 1 - 1 < l.commit_index
          · have htr : l.truncate (b + i + 1 - 1) =
                (l, Except.error (Err.Value "Cannot remove committed log entry")) := by
              unfold Log.truncate
              rw [if_neg hta2, if_pos htc2]
            have hstep : Log.spliceEntries l b i (e :: rest) =
                (l, Except.error (Err.Value "Cannot remove committed log entry")) := by
              simp only [Log.spliceEntries, hg, hbt, Bool.false_eq_true, if_false, htr]
            rw [hstep]
            exact h
          · obtain ⟨hli, hget2, hres, hlterm2, _, _⟩ :=
              truncate_ok l (b + i + 1 - 1) hta2 htc2
            rcases htr : l.truncate (b + i + 1 - 1) with ⟨l', r⟩
            rw [htr] at hli hget2 hres hlterm2
            dsimp only at hli hget2 hres hlterm2
            subst hres
            have hstep : Log.spliceEntries l b i (e :: rest) =
                Log.spliceEntries (l'.append e).1 b (i + 1) rest := by
              simp only [Log.spliceEntries, hg, hbt, Bool.false_eq_true, if_false, htr]
            have hWFt : WF l' := by
              have hw := WF_truncate l (b + i + 1 - 1) h
              rw [htr] at hw
              exact hw
            have hmin : min (b + i + 1 - 1) l.last_index = b + i := by omega
            have hterm_pres : termAt l' (b + i) = termAt l (b + i) := by
              unfold termAt
              rw [hget2 (b + i), if_neg (by omega)]
            have hle : l'.last_term ≤ e.term := by
              rw [hlterm2, hmin, hterm_pres]
              exact hhead
            rw [hstep]
            refine ih (l'.append e).1 b (i + 1) (WF_append l' e hWFt hle) ?_ ?_
            · show b + (i + 1) ≤ (l'.append e).1.last_index
              have : (l'.append e).1.last_index = l'.last_index + 1 := rfl
              omega
            · have hta3 : termAt (l'.append e).1 (b + (i + 1)) = e.term := by
                show termAt (l'.append e).1 (b + i + 1) = e.term
                unfold termAt Log.get Log.append
                dsimp only
                rw [mapGet_mapSet, if_pos (by omega)]
              rw [hta3]
              exact htail

/-- On a well-formed log, a true `Log::has(b, t)` pins down the base:
`b ≤ last_index` and the term stored at `b` (0 for the empty prefix)
is `t`. -/
theorem has_true_elim (l : Log) (b t : Nat) (h : WF l) (hhas : l.has b t = true) :
    b ≤ l.last_index ∧ termAt l b = t := by
  unfold Log.has at hhas
  by_cases h0 : (b == 0 && t == 0) = true
  · have hb0 : b = 0 ∧ t = 0 := by simpa using h0
    have hget0 : l.get 0 = none := by
      cases hg : l.get 0 with
      | none => rfl
      | some e =>
        have hiff := h.1 0
        rw [hg] at hiff
        have := hiff.mp rfl
        omega
    constructor
    · omega
    · rw [hb0.1]
      unfold termAt
      rw [hget0]
      show (0 : Nat) = t
      omega
  · rw [if_neg h0] at hhas
    cases hgb : l.get b with
    | none =>
      rw [hgb] at hhas
      exact absurd hhas (by simp)
    | some eb =>
      rw [hgb] at hhas
      have hterm : eb.term = t := beq_iff_eq.mp hhas
      have hst : 1 ≤ b ∧ b ≤ l.last_index := (h.1 b).mp (by rw [hgb]; rfl)
      refine ⟨hst.2, ?_⟩
      unfold termAt
      rw [hgb]
      exact hterm

/-- `Log::splice` preserves well-formedness when `base_term` followed by
the batch's terms is nondecreasing. -/
theorem WF_splice (l : Log) (b t : Nat) (E : List Entry) (h : WF l)
    (hchain : List.Chain (fun x y => x ≤ y) t (E.map Entry.term)) :
    WF (l.splice b t E).1 := by
  unfold Log.splice
  by_cases hhas : l.has b t = true
  · rw [if_pos hhas]
    obtain ⟨hble, hterm⟩ := has_true_elim l b t h hhas
    have hch : List.Chain (fun x y => x ≤ y) (termAt l (b + 0)) (E.map Entry.term) := by
      show List.Chain _ (termAt l b) _
      rw [hterm]
      exact hchain
    have hw := WF_spliceEntries E l b 0 h (by omega) hch
    rcases hs : Log.spliceEntries l b 0 E with ⟨l', r⟩
    rw [hs] at hw
    cases r with
    | ok u => exact hw
    | error err => exact hw
  · rw [if_neg hhas]
    exact h

/-- Reachability where appended and spliced batches respect term order:
`append` requires the entry's term to dominate `last_term`, and `splice`
requires `base_term` followed by the batch's terms to be nondecreasing —
exactly what the Raft protocol guarantees of the inputs it feeds to the
log. -/
inductive ProtocolReachable : Log → Prop where
  | init : ProtocolReachable Log.init
  | append (l : Log) (e : Entry) : ProtocolReachable l → l.last_term ≤ e.term →
      ProtocolReachable (l.append e).1
  | commit (l : Log) (i : Nat) : ProtocolReachable l →
      ProtocolReachable (l.commit i).1
  | apply (l : Log) (f : List Nat → Except Err (List Nat)) :
      ProtocolReachable l → ProtocolReachable (l.apply f).1
  | splice (l : Log) (b t : Nat) (E : List Entry) : ProtocolReachable l →
      List.Chain (fun x y => x ≤ y) t (E.map Entry.term) →
      ProtocolReachable (l.splice b t E).1
  | truncate (l : Log) (i : Nat) : ProtocolReachable l →
      ProtocolReachable (l.truncate i).1
  | save_term (l : Log) (t : Nat) (v : Option String) :
      ProtocolReachable l → ProtocolReachable (l.save_term t v)

theorem WF_init : WF Log.init := by
  refine ⟨?_, rfl, ?_⟩
  · intro i
    simp [Log.init, Log.get, mapGet]
    omega
  · intro a b ea eb hab h1 h2
    simp [Log.init, Log.get, mapGet] at h1

theorem protocol_reachable_WF (l : Log) (h : ProtocolReachable l) : WF l := by
  induction h with
  | init => exact WF_init
  | append l e _ hle ih => exact WF_append l e ih hle
  | commit l i _ ih =>
    obtain ⟨h1, h2, h3, _⟩ := commit_fields l i
    exact WF_congr l (l.commit i).1 h1 h2 h3 ih
  | apply l f _ ih =>
    obtain ⟨h1, h2, h3, _⟩ := apply_fields l f
    exact WF_congr l (l.apply f).1 h1 h2 h3 ih
  | splice l b t E _ hch ih => exact WF_splice l b t E ih hch
  | truncate l i _ ih => exact WF_truncate l i ih
  | save_term l t v _ ih =>
    obtain ⟨h1, h2, h3, _, _, _⟩ := save_term_fields l t v
    exact WF_congr l (l.save_term t v) h1 h2 h3 ih

/-- **C6** (counterexample): the raw public operations do not preserve
term monotonicity — `append` accepts entries with arbitrary terms, so
appending term 5 and then term 3 reaches a log with
`entry(1).term = 5 > entry(2).term = 3`. -/
theorem term_mono_cex :
    ¬ (∀ l : Log, Reachable l → ∀ i j : Nat, ∀ ei ej : Entry, i ≤ j →
        l.get i = some ei → l.get j = some ej → ei.term ≤ ej.term) := by
  intro hmono
  have hreach : Reachable ((Log.init.append ⟨5, some [1]⟩).1.append ⟨3, some [2]⟩).1 :=
    Reachable.append _ _ (Reachable.append _ _ Reachable.init)
  have hle := hmono _ hreach 1 2 ⟨5, some [1]⟩ ⟨3, some [2]⟩ (by decide)
    (by decide) (by decide)
  exact absurd hle (by decide)

/-- **C6** (corrected): every log state reachable by the public operations
with term-respecting inputs — `append` whose entry term dominates
`last_term`, `splice` whose `base_term` followed by the batch's terms is
nondecreasing, and unrestricted commit, apply, truncate and save_term —
has monotone terms along the index order: for all stored `i ≤ j`,
`entry(i).term ≤ entry(j).term`. -/
theorem protocol_term_mono (l : Log) (h : ProtocolReachable l) :
    ∀ i j ei ej, i ≤ j → l.get i = some ei → l.get j = some ej →
      ei.term ≤ ej.term :=
  (protocol_reachable_WF l h).2.2

theorem protocol_term_mono_witness :
    ((Log.init.append ⟨1, some [1]⟩).1.append ⟨2, some [2]⟩).1.get 1 =
      some ⟨1, some [1]⟩ ∧
    ((Log.init.append ⟨1, some [1]⟩).1.append ⟨2, some [2]⟩).1.get 2 =
      some ⟨2, some [2]⟩ ∧
    (⟨1, some [1]⟩ : Entry).term ≤ (⟨2, some [2]⟩ : Entry).term := by
  have hr : ProtocolReachable
      ((Log.init.append ⟨1, some [1]⟩).1.append ⟨2, some [2]⟩).1 :=
    ProtocolReachable.append _ _
      (ProtocolReachable.append _ _ ProtocolReachable.init (by decide)) (by decide)
  exact ⟨by decide, by decide,
    protocol_term_mono _ hr 1 2 _ _ (by decide) (by decide) (by decide)⟩

/-! ### C7: splice idempotence -/

theorem append_get (l : Log) (e : Entry) (j : Nat) :
    (l.append e).1.get j = if j = l.last_index + 1 then some e else l.get j := by
  unfold Log.get Log.append
  dsimp only
  rw [mapGet_mapSet]

theorem contiguous_append (l : Log) (e : Entry) (h : Contiguous l) :
    Contiguous (l.append e).1 := by
  intro j
  rw [append_get]
  have hli : (l.append e).1.last_index = l.last_index + 1 := rfl
  rw [hli]
  by_cases hj : j = l.last_index + 1
  · rw [if_pos hj]
    simp only [Option.isSome_some, true_iff]
    omega
  · rw [if_neg hj, h j]
    omega

theorem contiguous_truncate (l : Log) (index : Nat) (ha : ¬ index < l.apply_index)
    (hcm : ¬ index < l.commit_index) (h : Contiguous l) :
    Contiguous (l.truncate index).1 := by
  obtain ⟨hli, hget, _, _, _, _⟩ := truncate_ok l index ha hcm
  intro j
  rw [hget j, hli]
  by_cases hd : index + 1 ≤ j ∧ j ≤ l.last_index
  · rw [if_pos hd]
    simp only [Option.isSome_none, Bool.false_eq_true, false_iff]
    omega
  · rw [if_neg hd, h j]
    omega

/-- Success postcondition of the splice loop on a contiguous log: the
result is contiguous, the entries at or below the base position are
untouched, and every processed entry left an entry with its term at its
target index. -/
theorem spliceEntries_post (E : List Entry) :
    ∀ (l l' : Log) (b i : Nat), Contiguous l → b + i ≤ l.last_index →
      Log.spliceEntries l b i E = (l', Except.ok ()) →
      Contiguous l' ∧
      (∀ j, j ≤ b + i → l'.get j = l.get j) ∧
      (∀ k e, E.get? k = some e →
        ∃ cur, l'.get (b + i + 1 + k) = some cur ∧ cur.term = e.term) := by
  induction E with
  | nil =>
    intro l l' b i hc _ hs
    have hl : l = l' := congrArg Prod.fst hs
    subst hl
    exact ⟨hc, fun j _ => rfl, fun k e hke => absurd hke (by simp)⟩
  | cons e rest ih =>
    intro l l' b i hc hb hs
    cases hg : l.get (b + i + 1) with
    | none =>
      have hlast : b + i = l.last_index := by
        have hiff := hc (b + i + 1)
        rw [hg] at hiff
        simp at hiff
        omega
      have hstep : Log.spliceEntries l b i (e :: rest) =
          Log.spliceEntries (l.append e).1 b (i + 1) rest := by
        simp only [Log.spliceEntries, hg]
      rw [hstep] at hs
      have hca : Contiguous (l.append e).1 := contiguous_append l e hc
      have hba : b + (i + 1) ≤ (l.append e).1.last_index := by
        have : (l.append e).1.last_index = l.last_index + 1 := rfl
        omega
      obtain ⟨hc', hpre, hk⟩ := ih (l.append e).1 l' b (i + 1) hca hba hs
      refine ⟨hc', ?_, ?_⟩
      · intro j hj
        rw [hpre j (by omega), append_get, if_neg (by omega)]
      · intro k e' hke
        cases k with
        | zero =>
          refine ⟨e, ?_, ?_⟩
          · rw [show b + i + 1 + 0 = b + i + 1 from rfl,
              hpre (b + i + 1) (by omega), append_get, if_pos (by omega)]
          · have he' : e = e' := by simpa using hke
            rw [← he']
        | succ k' =>
          have hke' : rest.get? k' = some e' := by simpa using hke
          obtain ⟨cur, hcur, hterm⟩ := hk k' e' hke'
          refine ⟨cur, ?_, hterm⟩
          have harith : b + (i + 1) + 1 + k' = b + i + 1 + (k' + 1) := by omega
          rw [← harith]
          exact hcur
    | some current =>
      have htarget : 1 ≤ b + i + 1 ∧ b + i + 1 ≤ l.last_index := by
        have hiff := hc (b + i + 1)
        rw [hg] at hiff
        exact hiff.mp rfl
      by_cases ht : current.term = e.term
      · have hbt : (current.term == e.term) = true := beq_iff_eq.mpr ht
        have hstep : Log.spliceEntries l b i (e :: rest) =
            Log.spliceEntries l b (i + 1) rest := by
          simp only [Log.spliceEntries, hg, hbt, if_true]
        rw [hstep] at hs
        obtain ⟨hc', hpre, hk⟩ := ih l l' b (i + 1) hc (by omega) hs
        refine ⟨hc', fun j hj => hpre j (by omega), ?_⟩
        intro k e' hke
        cases k with
        | zero =>
          refine ⟨current, ?_, ?_⟩
          · rw [show b + i + 1 + 0 = b + i + 1 from rfl,
              hpre (b + i + 1) (by omega)]
            exact hg
          · have he' : e = e' := by simpa using hke
            rw [← he']
            exact ht
        | succ k' =>
          have hke' : rest.get? k' = some e' := by simpa using hke
          obtain ⟨cur, hcur, hterm⟩ := hk k' e' hke'
          refine ⟨cur, ?_, hterm⟩
          have harith : b + (i + 1) + 1 + k' = b + i + 1 + (k' + 1) := by omega
          rw [← harith]
          exact hcur
      · have hbt : (current.term == e.term) = false := beq_false_of_ne ht
        by_cases hta2 : b + i + 1 - 1 < l.apply_index
        · have htr : l.truncate (b + i + 1 - 1) =
              (l, Except.error (Err.Value "Cannot remove applied log entry")) := by
            unfold Log.truncate
            rw [if_pos hta2]
          have hstep : Log.spliceEntries l b i (e :: rest) =
              (l, Except.error (Err.Value "Cannot remove applied log entry")) := by
            simp only [Log.spliceEntries, hg, hbt, Bool.false_eq_true, if_false, htr]
          rw [hstep] at hs
          have hcontra : (Except.error (Err.Value "Cannot remove applied log entry") :
              Except Err Unit) = Except.ok () := congrArg Prod.snd hs
          exact Except.noConfusion hcontra
        · by_cases htc2 : b + i + 1 - 1 < l.commit_index
          · have htr : l.truncate (b + i + 1 - 1) =
                (l, Except.error (Err.Value "Cannot remove committed log entry")) := by
              unfold Log.truncate
              rw [if_neg hta2, if_pos htc2]
            have hstep : Log.spliceEntries l b i (e :: rest) =
                (l, Except.error (Err.Value "Cannot remove committed log entry")) := by
              simp only [Log.spliceEntries, hg, hbt, Bool.false_eq_true, if_false, htr]
            rw [hstep] at hs
            have hcontra : (Except.error (Err.Value "Cannot remove committed log entry") :
                Except Err Unit) = Except.ok () := congrArg Prod.snd hs
            exact Except.noConfusion hcontra
          · obtain ⟨hli, hget2, hres, hlt2, _, _⟩ :=
              truncate_ok l (b + i + 1 - 1) hta2 htc2
            rcases htr : l.truncate (b + i + 1 - 1) with ⟨l2, r⟩
            rw [htr] at hli hget2 hres hlt2
            dsimp only at hli hget2 hres hlt2
            subst hres
            have hstep : Log.spliceEntries l b i (e :: rest) =
                Log.spliceEntries (l2.append e).1 b (i + 1) rest := by
              simp only [Log.spliceEntries, hg, hbt, Bool.false_eq_true, if_false, htr]
            rw [hstep] at hs
            have hcl2 : Contiguous l2 := by
              have hct := contiguous_truncate l (b + i + 1 - 1) hta2 htc2 hc
              rw [htr] at hct
              exact hct
            have hli2 : l2.last_index = b + i := by omega
            have hca : Contiguous (l2.append e).1 := contiguous_append l2 e hcl2
            have hba : b + (i + 1) ≤ (l2.append e).1.last_index := by
              have : (l2.append e).1.last_index = l2.last_index + 1 := rfl
              omega
            obtain ⟨hc', hpre, hk⟩ := ih (l2.append e).1 l' b (i + 1) hca hba hs
            refine ⟨hc', ?_, ?_⟩
            · intro j hj
              rw [hpre j (by omega), append_get, if_neg (by omega), hget2 j,
                if_neg (by omega)]
            · intro k e' hke
              cases k with
              | zero =>
                refine ⟨e, ?_, ?_⟩
                · rw [show b + i + 1 + 0 = b + i + 1 from rfl,
                    hpre (b + i + 1) (by omega), append_get, if_pos (by omega)]
                · have he' : e = e' := by simpa using hke
                  rw [← he']
              | succ k' =>
                have hke' : rest.get? k' = some e' := by simpa using hke
                obtain ⟨cur, hcur, hterm⟩ := hk k' e' hke'
                refine ⟨cur, ?_, hterm⟩
                have harith : b + (i + 1) + 1 + k' = b + i + 1 + (k' + 1) := by omega
                rw [← harith]
                exact hcur

/-- When every incoming entry's term already matches the stored entry at
its target index, the splice loop skips everything and changes nothing. -/
theorem spliceEntries_skip (E : List Entry) :
    ∀ (l : Log) (b i : Nat),
      (∀ k e, E.get? k = some e →
        ∃ cur, l.get (b + i + 1 + k) = some cur ∧ cur.term = e.term) →
      Log.spliceEntries l b i E = (l, Except.ok ()) := by
  induction E with
  | nil => intro l b i _; rfl
  | cons e rest ih =>
    intro l b i hk
    obtain ⟨cur, hcur, hterm⟩ := hk 0 e rfl
    have hcur' : l.get (b + i + 1) = some cur := hcur
    have hstep : Log.spliceEntries l b i (e :: rest) =
        Log.spliceEntries l b (i + 1) rest := by
      simp only [Log.spliceEntries, hcur', beq_iff_eq.mpr hterm, if_true]
    rw [hstep]
    refine ih l b (i + 1) ?_
    intro k e' hke
    obtain ⟨cur2, hcur2, ht2⟩ := hk (k + 1) e' (by simpa using hke)
    refine ⟨cur2, ?_, ht2⟩
    have harith : b + i + 1 + (k + 1) = b + (i + 1) + 1 + k := by omega
    rw [← harith]
    exact hcur2

/-- A store as a crash can leave it: the contiguous keys stop at 1, but a
stale entry survives at key 5. -/
def crashStore : KVStore :=
  { entries := [(1, ⟨1, some [1]⟩), (5, ⟨9, some [5]⟩)],
    stored_apply_index := none, stored_term := none, stored_voted_for := none }

/-- The log `Log::new` recovers from `crashStore`: the contiguous scan
stops at index 1, yet `get 5` still answers. -/
def crashLog : Log :=
  { entries := [(1, ⟨1, some [1]⟩), (5, ⟨9, some [5]⟩)],
    stored_apply_index := none, stored_term := none, stored_voted_for := none,
    last_index := 1, last_term := 1, commit_index := 0, commit_term := 0,
    apply_index := 0, apply_term := 0 }

/-- **C7** (counterexample): splice is not idempotent on every log state.
`Log::new` on a store with entries at keys 1 and 5 yields a log with
`last_index = 1` and a stale entry at 5; `splice(5, 9, [entry])` succeeds
(the base matches the stale entry, the new entry is appended at index 2)
returning 2, and re-running the same splice appends again at index 3,
changing the log and returning 3. -/
theorem splice_idempotent_cex :
    Log.new crashStore = Except.ok crashLog ∧
    (crashLog.splice 5 9 [⟨9, some [7]⟩]).2 = Except.ok 2 ∧
    ((crashLog.splice 5 9 [⟨9, some [7]⟩]).1.splice 5 9 [⟨9, some [7]⟩]).2 =
      Except.ok 3 ∧
    ((crashLog.splice 5 9 [⟨9, some [7]⟩]).1.splice 5 9 [⟨9, some [7]⟩]).1 ≠
      (crashLog.splice 5 9 [⟨9, some [7]⟩]).1 := by decide

/-- **C7** (corrected): on a log whose entries are contiguous — as holds
for every log the public operations build from a fresh store — a
successful `splice(b, t, E)` is idempotent: immediately re-running
`splice(b, t, E)` on the result leaves the stored entries, `last_index`
and `last_term` identical and returns the same `last_index`. -/
theorem splice_idempotent (l l' : Log) (b t : Nat) (E : List Entry) (n : Nat)
    (hcontig : Contiguous l) (hs : l.splice b t E = (l', Except.ok n)) :
    l'.splice b t E = (l', Except.ok n) := by
  unfold Log.splice at hs
  by_cases hhas : l.has b t = true
  · rw [if_pos hhas] at hs
    have hble : b ≤ l.last_index := by
      unfold Log.has at hhas
      by_cases h0 : (b == 0 && t == 0) = true
      · have hb0 : b = 0 ∧ t = 0 := by simpa using h0
        omega
      · rw [if_neg h0] at hhas
        cases hgb : l.get b with
        | none =>
          rw [hgb] at hhas
          exact absurd hhas (by simp)
        | some eb =>
          have := (hcontig b).mp (by rw [hgb]; rfl)
          omega
    rcases hsp : Log.spliceEntries l b 0 E with ⟨l2, r⟩
    rw [hsp] at hs
    cases r with
    | error err =>
      have hcontra : (Except.error err : Except Err Nat) = Except.ok n :=
        congrArg Prod.snd hs
      exact Except.noConfusion hcontra
    | ok u =>
      have hfst : l2 = l' := congrArg Prod.fst hs
      have hsnd : (Except.ok l2.last_index : Except Err Nat) = Except.ok n :=
        congrArg Prod.snd hs
      have hn : l2.last_index = n := by injection hsnd
      subst hfst
      obtain ⟨hc', hpre, hk⟩ := spliceEntries_post E l l2 b 0 hcontig (by omega) hsp
      unfold Log.splice
      have hhas2 : l2.has b t = true := by
        unfold Log.has at hhas ⊢
        by_cases h0 : (b == 0 && t == 0) = true
        · rw [if_pos h0]
        · rw [if_neg h0] at hhas ⊢
          rw [hpre b (by omega)]
          exact hhas
      rw [if_pos hhas2]
      have hskip : Log.spliceEntries l2 b 0 E = (l2, Except.ok ()) :=
        spliceEntries_skip E l2 b 0 hk
      rw [hskip, ← hn]
  · rw [if_neg hhas] at hs
    have hcontra : (Except.error (Err.RaftBaseNotFound b t) : Except Err Nat) =
        Except.ok n := congrArg Prod.snd hs
    exact Except.noConfusion hcontra

/-- A contiguous two-entry log built by the operations. -/
def appendDemo : Log := ((Log.init.append ⟨1, some [1]⟩).1.append ⟨2, some [2]⟩).1

theorem appendDemo_contig : Contiguous appendDemo :=
  contiguous_append _ _ (contiguous_append _ _ (by
    intro i
    simp [Log.init, Log.get, mapGet]
    omega))

theorem splice_idempotent_witness :
    (appendDemo.splice 2 2 [⟨3, some [3]⟩]).1.splice 2 2 [⟨3, some [3]⟩] =
      ((appendDemo.splice 2 2 [⟨3, some [3]⟩]).1, Except.ok 3) :=
  splice_idempotent appendDemo (appendDemo.splice 2 2 [⟨3, some [3]⟩]).1 2 2
    [⟨3, some [3]⟩] 3 appendDemo_contig (by decide)

end MyNode
